import Mathlib

/-!
Verification of the taint-propagation benchmark repository.

The JavaScript source is shallowly embedded in Lean: strings become `List Char`
(a JS string is its character sequence), byte buffers become `List Nat` with
entries below 256, JS objects relevant to the claims become structures or the
`Json` value type, fulfilled promises are wrapped in `JsPromise`, and functions
that can fail return `Option`.  Every definition mirrors one function of the
repository (file and lines given in its doc comment) except the provenance
data model, which the repository only describes in comments and the spec
defines precisely; those definitions say `Modelled from the spec:`.
-/

namespace JsVuln

/-! ## Provenance data model

The repository threads raw values and documents taint only in comments; the
spec (section 3) gives the precise value model used by the label claims. -/

/-- Modelled from the spec: the taint-origin category enumeration of
`ProvenanceLabel` (spec section 3); absent from the source, which tracks taint
only in comments. -/
inductive Category
  | HTTP_BODY | HTTP_QUERY | HTTP_HEADER | HTTP_PARAM | COOKIE | SESSION
  | FILE | WEBSOCKET | EXTERNAL_API | ENV | DNS | SOCKET | WEBHOOK
  | JWT_CLAIM | SAML_ASSERTION
deriving DecidableEq, Repr

/-- Modelled from the spec: the trust level of a label (spec section 3). -/
inductive TrustLevel
  | UNTRUSTED | SEMI_TRUSTED
deriving DecidableEq, Repr

/-- Modelled from the spec: an immutable provenance label
(spec section 3); absent from the source. -/
structure ProvenanceLabel where
  originId : String
  category : Category
  trustLevel : TrustLevel
deriving DecidableEq, Repr

/-- Modelled from the spec: a payload wrapped with its label set and hop
counter (spec section 3, `TaintedValue<T>`); absent from the source, whose
relay functions are polymorphic and are instantiated at this type by the
label claims. -/
structure TaintedValue (T : Type) where
  payload : T
  labels : List ProvenanceLabel
  hopCount : Nat
deriving DecidableEq, Repr

/-- A sample untrusted HTTP-body label, used to instantiate claims. -/
def httpBodyLabel : ProvenanceLabel :=
  ⟨"http_body", Category.HTTP_BODY, TrustLevel.UNTRUSTED⟩

/-! ## TaintRelay (src/unnamed/part_004 lines 16-54)

Each relay is a polymorphic JavaScript function; the embedding keeps the
polymorphism, so instantiating at `TaintedValue` settles the label claims. -/

/-- A fulfilled JavaScript promise: `resolved` is the value it resolves to. -/
structure JsPromise (α : Type) where
  resolved : α
deriving DecidableEq, Repr

/-- The object literal built by `objectRelay`: a single `value` property. -/
structure ValueBox (α : Type) where
  value : α
deriving DecidableEq, Repr

namespace TaintRelay

/-- `TaintRelay.passthrough` (part_004 lines 19-21): returns input unchanged. -/
def passthrough (data : α) : α := data

/-- `TaintRelay.arrayRelay` (part_004 lines 24-27): wraps the input in a
one-element array and returns element 0. -/
def arrayRelay (data : α) : α :=
  ([data] : List α).head (by simp)

/-- `TaintRelay.objectRelay` (part_004 lines 30-33): stores the input in an
object literal and reads the property back. -/
def objectRelay (data : α) : α :=
  (ValueBox.mk data).value

/-- `TaintRelay.asyncRelay` (part_004 lines 36-40): a promise that a zero-delay
timer resolves with the input. -/
def asyncRelay (data : α) : JsPromise α :=
  ⟨data⟩

/-- `TaintRelay.multiHopRelay` (part_004 lines 48-53): `passthrough`, then
`arrayRelay`, then `objectRelay`. -/
def multiHopRelay (data : α) : α :=
  objectRelay (arrayRelay (passthrough data))

end TaintRelay

/-! ## ContextPropagation (src/unnamed/part_004 lines 262-298)

`this.context` is a plain JS object literal `{}`: it has own properties and
it inherits from `Object.prototype` — in particular the `__proto__` accessor
pair and the built-in methods (`toString`, `hasOwnProperty`, …), which are
writable data properties on the prototype, so ordinary assignment shadows
them.  The class offers only `set` and `get` — there is no clear or delete
operation. -/

/-- A JavaScript value as the context store handles it: `undefined`, a
primitive (`null`, boolean, number, string), or an object held by reference
— an arbitrary object by identity (`object id`), an inherited built-in
function object (`builtin name`), or the `Object.prototype` object itself.
Objects other than `Object.prototype` are modelled as plain data objects:
own properties, accessors and non-writable descriptors of such foreign
objects are outside the model. -/
inductive JsVal
  | undef
  | jsNull
  | bool (b : Bool)
  | num (n : Int)
  | str (s : List Char)
  | object (id : Nat)
  | builtin (name : String)
  | objectProto
deriving DecidableEq, Repr

/-- Whether the inherited `__proto__` setter accepts the value (an object or
`null` re-points the prototype; any other value is silently discarded). -/
def JsVal.isObjectOrNull : JsVal → Bool
  | JsVal.jsNull => true
  | JsVal.object _ => true
  | JsVal.builtin _ => true
  | JsVal.objectProto => true
  | _ => false

/-- The string keys of the writable data properties a plain object inherits
from `Object.prototype`, besides the `__proto__` accessor. -/
def objectProtoKeys : List String :=
  ["constructor", "hasOwnProperty", "isPrototypeOf", "propertyIsEnumerable",
   "toLocaleString", "toString", "valueOf", "__defineGetter__",
   "__defineSetter__", "__lookupGetter__", "__lookupSetter__"]

/-- `ContextPropagation` (part_004 lines 262-266): `this.context = {}` — the
own properties assigned so far (most recent first) together with the
object's prototype, which starts as `Object.prototype`. -/
structure ContextPropagation where
  context : List (String × JsVal)
  proto : JsVal
deriving DecidableEq, Repr

namespace ContextPropagation

/-- `new ContextPropagation()`: the empty object literal, inheriting
`Object.prototype`. -/
def init : ContextPropagation := ⟨[], JsVal.objectProto⟩

/-- `ContextPropagation.set` (part_004 lines 269-271):
`this.context[key] = value`.  Assignment to an ordinary key creates or
updates an own property (the inherited `Object.prototype` methods are
writable, so shadowing succeeds).  Assignment to `__proto__` reaches the
inherited accessor instead: an object or `null` re-points the prototype and
stores no property, any other value is silently discarded; only when the
prototype chain has been set to `null` (so no accessor is inherited) does
the assignment create an ordinary own property. -/
def set (c : ContextPropagation) (key : String) (value : JsVal) :
    ContextPropagation :=
  if key = "__proto__" then
    match c.proto with
    | JsVal.jsNull => ⟨(key, value) :: c.context, c.proto⟩
    | _ => if value.isObjectOrNull then ⟨c.context, value⟩ else c
  else ⟨(key, value) :: c.context, c.proto⟩

/-- Own-property lookup on the context object: the most recent assignment
wins. -/
def findProp : List (String × JsVal) → String → Option JsVal
  | [], _ => none
  | (k, v) :: rest, key => if k = key then some v else findProp rest key

/-- `ContextPropagation.get` (part_004 lines 274-276):
`return this.context[key]` — an own property if one exists, otherwise a
lookup through the prototype chain: a `null` prototype inherits nothing;
otherwise `__proto__` reads the current prototype back through the
inherited accessor, the `Object.prototype` method keys yield the inherited
built-in function objects, and any other absent key yields the ordinary
value `undefined`. -/
def get (c : ContextPropagation) (key : String) : JsVal :=
  match findProp c.context key with
  | some v => v
  | none =>
    match c.proto with
    | JsVal.jsNull => JsVal.undef
    | _ =>
      if key = "__proto__" then c.proto
      else if key ∈ objectProtoKeys then JsVal.builtin key
      else JsVal.undef

end ContextPropagation

/-! ## ChainBuilder (src/unnamed/part_004 lines 196-257)

`simpleChain` and `parallelSinks` thread plain values; a capability is a
function whose settled result is either a fulfilled value or a rejection,
embedded as `Except`. -/

/-- Terminal observation of one chain run.  The source's `simpleChain` simply
awaits the sink, so a run can only complete; `taintLossError` exists in this
type solely so the spec's claimed failure mode is expressible — no definition
below ever produces it. -/
inductive ChainOutcome (β : Type)
  | completed (result : β)
  | taintLossError (stepIndex : Nat)
deriving DecidableEq, Repr

namespace ChainBuilder

/-- `ChainBuilder.simpleChain` (part_004 lines 199-202): apply the transformer
to the source, pass the result to the sink, return what the sink returns. -/
def simpleChain {α γ β : Type} (source : α) (transformer : α → γ)
    (sink : γ → β) : β :=
  sink (transformer source)

/-- A `simpleChain` run observed as a `ChainOutcome`: the awaited sink result
is the completed value.  There is no verification step in the source, hence no
other branch. -/
def runSimpleChain {α γ β : Type} (source : α) (transformer : α → γ)
    (sink : γ → β) : ChainOutcome β :=
  ChainOutcome.completed (simpleChain source transformer sink)

/-- `Promise.all` over already-settled promises: the first rejection in list
order rejects the whole join; otherwise all fulfilled values, in order. -/
def promiseAll {ε β : Type} : List (Except ε β) → Except ε (List β)
  | [] => Except.ok []
  | p :: rest =>
    match p with
    | Except.error e => Except.error e
    | Except.ok b =>
      match promiseAll rest with
      | Except.error e => Except.error e
      | Except.ok bs => Except.ok (b :: bs)

/-- `ChainBuilder.parallelSinks` (part_004 lines 205-207):
`Promise.all(sinks.map(sink => sink(source)))`. -/
def parallelSinks {α ε β : Type} (source : α)
    (sinks : List (α → Except ε β)) : Except ε (List β) :=
  promiseAll (sinks.map (fun sink => sink source))

end ChainBuilder

/-- A relay operator (incorrectly) registered as preserving that strips every
label from its input, as posited by the taint-loss claim. -/
def stripLabelsRelay (v : TaintedValue α) : TaintedValue α :=
  ⟨v.payload, [], v.hopCount⟩

/-- Modelled from the spec: how the harness applies a payload-transforming
relay operator registered as preserving — the transform acts on the payload
while the label set is carried over and the hop counter advances by one (spec
sections 3 and 4.2); this bookkeeping is absent from the source. -/
def applyPreserving (f : α → β) (v : TaintedValue α) : TaintedValue β :=
  ⟨f v.payload, v.labels, v.hopCount + 1⟩

/-! ## JSON values

`TaintTransform.jsonRoundTrip` calls the platform's `JSON.stringify` and
`JSON.parse`; these are modelled here over the JSON value type.  Strings are
`List Char`; numbers are restricted to integers (the claims exercise only
strings, and float formatting is outside the embedding); documents carry no
whitespace, which covers the whole image of `JSON.stringify`.  The three
mutually inductive types are one value grammar: a value, an element list, a
property list. -/

mutual
inductive Json
  | null
  | bool (b : Bool)
  | num (n : Int)
  | str (s : List Char)
  | arr (elems : JsonList)
  | obj (fields : JsonFields)
deriving DecidableEq, Repr
inductive JsonList
  | nil
  | cons (head : Json) (tail : JsonList)
deriving DecidableEq, Repr
inductive JsonFields
  | nil
  | cons (key : List Char) (val : Json) (tail : JsonFields)
deriving DecidableEq, Repr
end

/-- Decimal digit test, as the JSON number grammar uses it. -/
def isDigit (c : Char) : Bool := 48 ≤ c.toNat && c.toNat ≤ 57

/-- The character of a decimal digit. -/
def digitChar (d : Nat) : Char := Char.ofNat (48 + d)

/-- Lower-case hexadecimal digit character, for string escapes. -/
def hexDigitChar (d : Nat) : Char :=
  if d < 10 then Char.ofNat (48 + d) else Char.ofNat (87 + d)

/-- Value of a hexadecimal digit character (either case), for `\u` escapes. -/
def hexCharVal (c : Char) : Option Nat :=
  if 48 ≤ c.toNat && c.toNat ≤ 57 then some (c.toNat - 48)
  else if 97 ≤ c.toNat && c.toNat ≤ 102 then some (c.toNat - 87)
  else if 65 ≤ c.toNat && c.toNat ≤ 70 then some (c.toNat - 55)
  else none

/-- How `JSON.stringify` renders one character inside a string literal:
quote and backslash get escaped, the five named control escapes are used,
any other control character becomes a `\u00xx` escape. -/
def escapeChar (c : Char) : List Char :=
  if c = '"' then ['\\', '"']
  else if c = '\\' then ['\\', '\\']
  else if c = Char.ofNat 8 then ['\\', 'b']
  else if c = Char.ofNat 9 then ['\\', 't']
  else if c = Char.ofNat 10 then ['\\', 'n']
  else if c = Char.ofNat 12 then ['\\', 'f']
  else if c = Char.ofNat 13 then ['\\', 'r']
  else if c.toNat < 32 then
    ['\\', 'u', '0', '0', hexDigitChar (c.toNat / 16), hexDigitChar (c.toNat % 16)]
  else [c]

/-- A string's characters, each escaped. -/
def escapeStr (s : List Char) : List Char := s.flatMap escapeChar

/-- A rendered string literal: quoted and escaped. -/
def quoteStr (s : List Char) : List Char :=
  '"' :: (escapeStr s ++ ['"'])

/-- Decimal digit characters of a natural number, most significant first. -/
def natChars (n : Nat) : List Char :=
  if n < 10 then [digitChar n]
  else natChars (n / 10) ++ [digitChar (n % 10)]
termination_by n
decreasing_by exact Nat.div_lt_self (by omega) (by omega)

/-- Decimal rendering of an integer: optional minus sign, then digits. -/
def intChars (i : Int) : List Char :=
  if i < 0 then '-' :: natChars i.natAbs else natChars i.natAbs

mutual
/-- `JSON.stringify` over the value grammar (no whitespace, keys in stored
order, strings escaped). -/
def stringify : Json → List Char
  | Json.null => ['n', 'u', 'l', 'l']
  | Json.bool true => ['t', 'r', 'u', 'e']
  | Json.bool false => ['f', 'a', 'l', 's', 'e']
  | Json.num i => intChars i
  | Json.str s => quoteStr s
  | Json.arr xs => '[' :: (stringifyItems xs ++ [']'])
  | Json.obj fs => '{' :: (stringifyProps fs ++ ['}'])
/-- Array elements, comma separated. -/
def stringifyItems : JsonList → List Char
  | JsonList.nil => []
  | JsonList.cons v tail => stringify v ++ moreItems tail
/-- The remaining elements, each preceded by a comma. -/
def moreItems : JsonList → List Char
  | JsonList.nil => []
  | JsonList.cons v tail => ',' :: (stringify v ++ moreItems tail)
/-- Object properties, comma separated, each `"key":value`. -/
def stringifyProps : JsonFields → List Char
  | JsonFields.nil => []
  | JsonFields.cons k v tail => quoteStr k ++ ':' :: (stringify v ++ moreProps tail)
/-- The remaining properties, each preceded by a comma. -/
def moreProps : JsonFields → List Char
  | JsonFields.nil => []
  | JsonFields.cons k v tail =>
    ',' :: (quoteStr k ++ ':' :: (stringify v ++ moreProps tail))
end

/-- The character named by a one-letter string escape, as `JSON.parse`
accepts it. -/
def unescapeChar (e : Char) : Option Char :=
  if e = '"' then some '"'
  else if e = '\\' then some '\\'
  else if e = '/' then some '/'
  else if e = 'b' then some (Char.ofNat 8)
  else if e = 't' then some (Char.ofNat 9)
  else if e = 'n' then some (Char.ofNat 10)
  else if e = 'f' then some (Char.ofNat 12)
  else if e = 'r' then some (Char.ofNat 13)
  else none

/-- Parse the body of a string literal after its opening quote, undoing
escapes, up to the closing quote. -/
def parseStrBody : List Char → Option (List Char × List Char)
  | [] => none
  | '"' :: rest => some ([], rest)
  | '\\' :: 'u' :: a :: b :: c :: d :: rest =>
    match hexCharVal a, hexCharVal b, hexCharVal c, hexCharVal d with
    | some va, some vb, some vc, some vd =>
      match parseStrBody rest with
      | some (s, r) => some (Char.ofNat (((va * 16 + vb) * 16 + vc) * 16 + vd) :: s, r)
      | none => none
    | _, _, _, _ => none
  | '\\' :: e :: rest =>
    match unescapeChar e with
    | some ch =>
      match parseStrBody rest with
      | some (s, r) => some (ch :: s, r)
      | none => none
    | none => none
  | c :: rest =>
    match parseStrBody rest with
    | some (s, r) => some (c :: s, r)
    | none => none

/-- The maximal run of decimal digits at the head of the input, and the
remainder. -/
def digitRun : List Char → List Char × List Char
  | [] => ([], [])
  | c :: rest =>
    if isDigit c then
      let p := digitRun rest
      (c :: p.1, p.2)
    else ([], c :: rest)

/-- The natural number a run of digit characters denotes. -/
def digitsVal (ds : List Char) : Nat :=
  ds.foldl (fun a c => a * 10 + (c.toNat - 48)) 0

mutual
/-- `JSON.parse`, fuelled: one JSON value from the head of the input, with
the unconsumed remainder.  Fuel only bounds recursion depth; `jsonParse`
supplies enough for any input. -/
def parseVal : Nat → List Char → Option (Json × List Char)
  | 0, _ => none
  | _ + 1, 'n' :: 'u' :: 'l' :: 'l' :: rest => some (Json.null, rest)
  | _ + 1, 't' :: 'r' :: 'u' :: 'e' :: rest => some (Json.bool true, rest)
  | _ + 1, 'f' :: 'a' :: 'l' :: 's' :: 'e' :: rest => some (Json.bool false, rest)
  | _ + 1, '"' :: rest =>
    match parseStrBody rest with
    | some (s, r) => some (Json.str s, r)
    | none => none
  | fuel + 1, '[' :: rest =>
    match rest with
    | ']' :: r => some (Json.arr JsonList.nil, r)
    | _ =>
      match parseItems fuel rest with
      | some (xs, r) => some (Json.arr xs, r)
      | none => none
  | fuel + 1, '{' :: rest =>
    match rest with
    | '}' :: r => some (Json.obj JsonFields.nil, r)
    | _ =>
      match parseProps fuel rest with
      | some (fs, r) => some (Json.obj fs, r)
      | none => none
  | _ + 1, '-' :: rest =>
    if (digitRun rest).1 = [] then none
    else some (Json.num (-(digitsVal (digitRun rest).1 : Int)), (digitRun rest).2)
  | _ + 1, c :: rest =>
    if isDigit c then
      if (digitRun (c :: rest)).1 = [] then none
      else some (Json.num (digitsVal (digitRun (c :: rest)).1 : Int),
        (digitRun (c :: rest)).2)
    else none
  | _ + 1, [] => none
/-- One or more comma-separated array elements, up to the closing bracket
(the empty array is handled in `parseVal`, so no trailing comma parses). -/
def parseItems : Nat → List Char → Option (JsonList × List Char)
  | 0, _ => none
  | fuel + 1, cs =>
    match parseVal fuel cs with
    | none => none
    | some (v, r) =>
      match r with
      | ',' :: r2 =>
        match parseItems fuel r2 with
        | some (xs, r3) => some (JsonList.cons v xs, r3)
        | none => none
      | ']' :: r2 => some (JsonList.cons v JsonList.nil, r2)
      | _ => none
/-- One or more comma-separated object properties, up to the closing brace
(the empty object is handled in `parseVal`). -/
def parseProps : Nat → List Char → Option (JsonFields × List Char)
  | 0, _ => none
  | fuel + 1, cs =>
    match cs with
    | '"' :: r =>
      match parseStrBody r with
      | none => none
      | some (k, r1) =>
        match r1 with
        | ':' :: r2 =>
          match parseVal fuel r2 with
          | none => none
          | some (v, r3) =>
            match r3 with
            | ',' :: r4 =>
              match parseProps fuel r4 with
              | some (fs, r5) => some (JsonFields.cons k v fs, r5)
              | none => none
            | '}' :: r4 => some (JsonFields.cons k v JsonFields.nil, r4)
            | _ => none
        | _ => none
    | _ => none
end

/-- `JSON.parse` of a whole document: one value consuming the entire input,
otherwise failure (the thrown `SyntaxError`, caught as `none`). -/
def jsonParse (cs : List Char) : Option Json :=
  match parseVal (cs.length + 1) cs with
  | some (v, []) => some v
  | _ => none

/-! ## Base64

`Buffer.from(data).toString('base64')` and its inverse, over byte lists
(a JS string is identified with its byte sequence here; `Buffer.from` and
`toString` are then the identity on bytes). -/

/-- The base64 alphabet character of a sextet. -/
def b64Char (n : Nat) : Char :=
  if n < 26 then Char.ofNat (65 + n)
  else if n < 52 then Char.ofNat (97 + (n - 26))
  else if n < 62 then Char.ofNat (48 + (n - 52))
  else if n = 62 then '+'
  else '/'

/-- The sextet of a base64 alphabet character. -/
def b64CharVal (c : Char) : Option Nat :=
  if 65 ≤ c.toNat && c.toNat ≤ 90 then some (c.toNat - 65)
  else if 97 ≤ c.toNat && c.toNat ≤ 122 then some (c.toNat - 71)
  else if 48 ≤ c.toNat && c.toNat ≤ 57 then some (c.toNat + 4)
  else if c = '+' then some 62
  else if c = '/' then some 63
  else none

/-- Base64 encoding of a byte list, three bytes to four characters, padded
with `=`. -/
def b64Encode : List Nat → List Char
  | a :: b :: c :: rest =>
    b64Char (a / 4) :: b64Char (a % 4 * 16 + b / 16) ::
      b64Char (b % 16 * 4 + c / 64) :: b64Char (c % 64) :: b64Encode rest
  | [a, b] =>
    [b64Char (a / 4), b64Char (a % 4 * 16 + b / 16), b64Char (b % 16 * 4), '=']
  | [a] => [b64Char (a / 4), b64Char (a % 4 * 16), '=', '=']
  | [] => []

/-- Base64 decoding of well-formed base64 text, four characters to three
bytes, honouring `=` padding in the final group. -/
def b64Decode : List Char → Option (List Nat)
  | [] => some []
  | c1 :: c2 :: c3 :: c4 :: rest =>
    if c3 = '=' ∧ c4 = '=' ∧ rest = [] then
      match b64CharVal c1, b64CharVal c2 with
      | some v1, some v2 => some [v1 * 4 + v2 / 16]
      | _, _ => none
    else if c4 = '=' ∧ rest = [] then
      match b64CharVal c1, b64CharVal c2, b64CharVal c3 with
      | some v1, some v2, some v3 =>
        some [v1 * 4 + v2 / 16, v2 % 16 * 16 + v3 / 4]
      | _, _, _ => none
    else
      match b64CharVal c1, b64CharVal c2, b64CharVal c3, b64CharVal c4 with
      | some v1, some v2, some v3, some v4 =>
        match b64Decode rest with
        | some bs =>
          some ((v1 * 4 + v2 / 16) :: (v2 % 16 * 16 + v3 / 4) :: (v3 % 4 * 64 + v4) :: bs)
        | none => none
      | _, _, _, _ => none
  | _ => none

/-! ## TaintTransform (src/unnamed/part_004 lines 59-105) -/

namespace TaintTransform

/-- `TaintTransform.concat` (part_004 lines 62-64): the template literal
joining the three strings (source parameter names: prefix, taintedData,
suffix; the first and last are renamed here because `prefix` is reserved). -/
def concat (pre : List Char) (taintedData : List Char) (suf : List Char) :
    List Char :=
  pre ++ taintedData ++ suf

/-- `TaintTransform.jsonRoundTrip` (part_004 lines 76-79):
`JSON.parse(JSON.stringify(data))`. -/
def jsonRoundTrip (data : Json) : Option Json :=
  jsonParse (stringify data)

/-- `TaintTransform.base64RoundTrip` (part_004 lines 82-85):
base64-encode the input's bytes, decode them back. -/
def base64RoundTrip (data : List Nat) : Option (List Nat) :=
  b64Decode (b64Encode data)

end TaintTransform

/-! ## JwtSource (src/VulnerableAPIGateway/sources/HttpSource.js lines 95-110)

`token.split('.')` is modelled by `splitOnDot`.  The payload pipeline the
source calls — `JSON.parse(Buffer.from(parts[1], 'base64').toString())` —
is platform code, not code of this repository; it is abstracted as an
opaque total function `decodePayload` whose `none` is a thrown parse error
(Node's base64 decoding and UTF-8 read-back never throw, and the source's
catch turns the `JSON.parse` throw into `null`).  What the repository
contributes — the falsy-token check, the dot split, the three-part check,
the catch, and the unread signature part — is embedded exactly. -/

/-- JavaScript `token.split('.')`: the dot-separated pieces, empty pieces
included. -/
def splitOnDot : List Char → List (List Char)
  | [] => [[]]
  | c :: rest =>
    if c = '.' then [] :: splitOnDot rest
    else
      match splitOnDot rest with
      | [] => [[c]]
      | g :: gs => (c :: g) :: gs

namespace JwtSource

/-- `JwtSource.extractClaims` (HttpSource.js lines 97-110): `null` for a
missing or empty token; split on dots, `null` unless exactly three parts;
decode and parse the middle part through the platform pipeline
`decodePayload`, whose failure (the caught `JSON.parse` throw) is `null`.
The signature part `parts[2]` is never examined and no signature is
verified. -/
def extractClaims (decodePayload : List Char → Option Json)
    (token : Option (List Char)) : Option Json :=
  match token with
  | none => none
  | some t =>
    if t.isEmpty then none
    else
      let parts := splitOnDot t
      if h : parts.length = 3 then decodePayload (parts.get ⟨1, by omega⟩)
      else none

end JwtSource

/-! ## WeakSanitizers (src/VulnerableAPIGateway/utils/sanitizers.js) -/

namespace WeakSanitizers

/-- The blacklist of `sanitizeCommand` (sanitizers.js line 14). -/
def blacklist : List Char :=
  [';', '&', '|', '`', '$', '(', ')', '{', '}']

/-- JavaScript `input.replace(char, '')` with a one-character string pattern:
only the first occurrence is removed. -/
def replaceFirst (pat : Char) : List Char → List Char
  | [] => []
  | c :: rest => if c = pat then rest else c :: replaceFirst pat rest

/-- `WeakSanitizers.sanitizeCommand` (sanitizers.js lines 12-22): for each
blacklisted character in order, `input = input.replace(char, '')`. -/
def sanitizeCommand (input : List Char) : List Char :=
  blacklist.foldl (fun acc c => replaceFirst c acc) input

/-- JavaScript `input.replace(/\.\.\//g, '')`: scan left to right; on a match
of `../` drop it and continue after it, otherwise keep the character. -/
def stripDotDotSlash : List Char → List Char
  | '.' :: '.' :: '/' :: rest => stripDotDotSlash rest
  | c :: rest => c :: stripDotDotSlash rest
  | [] => []

/-- `WeakSanitizers.sanitizePath` (sanitizers.js lines 28-31): one global
replace of `../` with the empty string. -/
def sanitizePath (input : List Char) : List Char :=
  stripDotDotSlash input

end WeakSanitizers

/-! ## Measures and predicates used by the correctness proofs -/

mutual
/-- Parser fuel needed for a value (bounds the parser's recursion depth). -/
def jsize : Json → Nat
  | Json.null => 1
  | Json.bool _ => 1
  | Json.num _ => 1
  | Json.str _ => 1
  | Json.arr xs => 1 + lsize xs
  | Json.obj fs => 1 + psize fs
/-- Parser fuel needed for an element list. -/
def lsize : JsonList → Nat
  | JsonList.nil => 0
  | JsonList.cons v tail => 1 + jsize v + lsize tail
/-- Parser fuel needed for a property list. -/
def psize : JsonFields → Nat
  | JsonFields.nil => 0
  | JsonFields.cons _ v tail => 1 + jsize v + psize tail
end

/-- The input cannot extend a decimal digit run: empty or headed by a
non-digit.  Every delimiter a rendered number is followed by qualifies. -/
def stopsNum : List Char → Bool
  | [] => true
  | c :: _ => !(isDigit c)

/-! # Theorems -/

/-! ## C1 — relay operators preserve labels by being the identity -/

/-- C1.  Label monotonicity of the relay library: every registered preserving
relay operator of the source (`passthrough`, `arrayRelay`, `objectRelay`,
`asyncRelay`, `multiHopRelay`) returns its input unchanged for every input
(`asyncRelay` resolves to it); consequently, for every `TaintedValue` with a
non-empty label set, the operator's output carries a superset of the input's
labels. -/
theorem relays_are_identity_and_monotone :
    (∀ (α : Type) (v : α),
      TaintRelay.passthrough v = v ∧
      TaintRelay.arrayRelay v = v ∧
      TaintRelay.objectRelay v = v ∧
      (TaintRelay.asyncRelay v).resolved = v ∧
      TaintRelay.multiHopRelay v = v) ∧
    (∀ (T : Type) (v : TaintedValue T), v.labels ≠ [] →
      v.labels ⊆ (TaintRelay.passthrough v).labels ∧
      v.labels ⊆ (TaintRelay.arrayRelay v).labels ∧
      v.labels ⊆ (TaintRelay.objectRelay v).labels ∧
      v.labels ⊆ (TaintRelay.asyncRelay v).resolved.labels ∧
      v.labels ⊆ (TaintRelay.multiHopRelay v).labels) := by
  refine ⟨fun α v => ⟨rfl, rfl, rfl, rfl, rfl⟩, fun T v _ => ?_⟩
  exact ⟨List.Subset.refl _, List.Subset.refl _, List.Subset.refl _,
    List.Subset.refl _, List.Subset.refl _⟩

/-- C1, witness: the theorem applied to a concrete tainted integer carrying
the HTTP-body label. -/
theorem relays_are_identity_and_monotone_witness :
    (⟨0, [httpBodyLabel], 0⟩ : TaintedValue Int).labels ⊆
      (TaintRelay.multiHopRelay (⟨0, [httpBodyLabel], 0⟩ : TaintedValue Int)).labels :=
  (relays_are_identity_and_monotone.2 Int ⟨0, [httpBodyLabel], 0⟩
    (by decide)).2.2.2.2

/-! ## C2 — the harness has no taint-loss verification -/

/-- C2, counterexample.  A relay operator registered as preserving that
strips every label does not make the chain report `TaintLossError`: the run
completes, handing the sink the label-free value.  The claim that the run
reports `TaintLossError` at that step (not `COMPLETED`) is therefore false
at this input. -/
theorem chain_taintloss_counterexample :
    ChainBuilder.runSimpleChain (⟨7, [httpBodyLabel], 0⟩ : TaintedValue Int)
        stripLabelsRelay (fun v => v)
      = ChainOutcome.completed ⟨7, [], 0⟩ := rfl

/-- C2, amended.  `ChainBuilder` performs no verification at all: every
`simpleChain` run completes with the sink's result on the transformed value —
label-stripping transformers included — and no `TaintLossError` outcome is
ever produced. -/
theorem chain_never_reports_taint_loss :
    ∀ (α γ β : Type) (s : α) (t : α → γ) (k : γ → β),
      ChainBuilder.runSimpleChain s t k = ChainOutcome.completed (k (t s)) :=
  fun _ _ _ _ _ _ => rfl

/-! ## C4 — store/load through the inherited __proto__ accessor -/

/-- C4, counterexample.  The universal store/load claim fails at the key
`__proto__`: on the fresh store, `set` with the primitive `5` reaches the
inherited `__proto__` accessor, which discards a primitive and stores no
property, and the following `get` returns the inherited `Object.prototype`
object — not `5`. -/
theorem context_proto_set_counterexample :
    (ContextPropagation.init.set "__proto__" (JsVal.num 5)).context = [] ∧
    (ContextPropagation.init.set "__proto__" (JsVal.num 5)).get "__proto__"
      = JsVal.objectProto ∧
    (ContextPropagation.init.set "__proto__" (JsVal.num 5)).get "__proto__"
      ≠ JsVal.num 5 := by
  refine ⟨by decide, by decide, by decide⟩

/-- C4, amended.  Store/load fidelity holds for every key other than
`__proto__`: `get` performed immediately after `set` on the same key
returns exactly the stored value — objects by the same reference,
provenance included, with no transformation — because ordinary assignment
creates or shadows an own property and `get` reads own properties first. -/
theorem context_store_load_fidelity :
    ∀ (c : ContextPropagation) (key : String) (v : JsVal),
      key ≠ "__proto__" → (c.set key v).get key = v := by
  intro c key v hk
  simp [ContextPropagation.set, hk, ContextPropagation.get,
    ContextPropagation.findProp]

/-- C4, amended, witness: the amended theorem applied to the fresh store,
the key `cmd` and a string value. -/
theorem context_store_load_fidelity_witness :
    (ContextPropagation.init.set "cmd" (JsVal.str "ls".toList)).get "cmd"
      = JsVal.str "ls".toList :=
  context_store_load_fidelity ContextPropagation.init "cmd"
    (JsVal.str "ls".toList) (by decide)

/-! ## C5 — reading a never-put key -/

/-- C5, counterexample.  `get` on the never-put key `cmd` does not fail with
`NotFound`: it returns the ordinary value `undefined`, and that outcome is
identical to reading a key that was explicitly assigned `undefined` — the
class has no clear operation and no `Cleared` outcome, and absent keys
silently yield an ordinary value.  This falsifies the claim at the concrete
key `cmd` on the fresh store. -/
theorem context_get_missing_counterexample :
    ContextPropagation.init.get "cmd" = JsVal.undef ∧
    (ContextPropagation.init.set "cmd" JsVal.undef).get "cmd"
      = ContextPropagation.init.get "cmd" := by
  refine ⟨by decide, by decide⟩

/-- C5, amended.  Reading a key with no own property returns the ordinary
value `undefined` — no error is raised and there is no `NotFound`/`Cleared`
distinction — unless the key is inherited from the prototype: `__proto__`
reads the prototype back through the inherited accessor, and the
`Object.prototype` method keys (`toString`, `hasOwnProperty`, …) yield the
inherited built-in function objects, as the second and third conjuncts show
on the fresh store. -/
theorem context_get_absent_is_undefined :
    (∀ (c : ContextPropagation) (key : String),
      (∀ p ∈ c.context, p.1 ≠ key) → key ≠ "__proto__" →
      key ∉ objectProtoKeys → c.get key = JsVal.undef) ∧
    ContextPropagation.init.get "toString" = JsVal.builtin "toString" ∧
    ContextPropagation.init.get "__proto__" = JsVal.objectProto := by
  refine ⟨?_, by decide, by decide⟩
  intro c key h hk hpk
  have aux : ∀ l : List (String × JsVal), (∀ p ∈ l, p.1 ≠ key) →
      ContextPropagation.findProp l key = none := by
    intro l
    induction l with
    | nil => intro _; rfl
    | cons p rest ih =>
      intro hl
      rw [ContextPropagation.findProp, if_neg (hl p (List.mem_cons_self p rest))]
      exact ih (fun q hq => hl q (List.mem_cons_of_mem p hq))
  rw [ContextPropagation.get, aux c.context h]
  cases c.proto <;> simp [hk, hpk]

/-- C5, amended, witness: the amended theorem applied to the fresh store and
the key `cmd`, which is neither assigned nor inherited. -/
theorem context_get_absent_is_undefined_witness :
    ContextPropagation.init.get "cmd" = JsVal.undef :=
  context_get_absent_is_undefined.1 ContextPropagation.init "cmd"
    (by intro p hp; simp [ContextPropagation.init] at hp) (by decide) (by decide)

/-! ## C6 — parallelSinks and Promise.all -/

/-- C6, counterexample.  For a fan-out over sinks `[A, B]` where `A` rejects
and `B` fulfils, `parallelSinks` returns only `A`'s rejection: `B`'s result
(` ok 42`, as the second conjunct shows it would have been) is not recorded,
so the chain's join does short-circuit on one sink's rejection, falsifying
the all-results-recorded part of the claim at this input. -/
theorem parallelSinks_shortcircuit_counterexample :
    ChainBuilder.parallelSinks (42 : Int)
        [fun _ => (Except.error "boom" : Except String Int), fun x => Except.ok x]
      = Except.error "boom" ∧
    (fun (x : Int) => (Except.ok x : Except String Int)) 42 = Except.ok 42 :=
  ⟨rfl, rfl⟩

/-- C6, amended.  Every listed sink is invoked with the source (the `map`
issues each invocation before the join), and when every sink fulfils the
join returns all results in list order; but if a sink rejects, the join
rejects with the first rejection in list order and the other sinks' results
are not recorded (`Promise.all` short-circuits the joined result). -/
theorem parallelSinks_first_rejection_or_all_results :
    ∀ (α ε β : Type) (x : α) (f g : α → Except ε β),
      (∀ e, f x = Except.error e →
        ChainBuilder.parallelSinks x [f, g] = Except.error e) ∧
      (∀ b e, f x = Except.ok b → g x = Except.error e →
        ChainBuilder.parallelSinks x [f, g] = Except.error e) ∧
      (∀ b c, f x = Except.ok b → g x = Except.ok c →
        ChainBuilder.parallelSinks x [f, g] = Except.ok [b, c]) := by
  intro α ε β x f g
  refine ⟨fun e hf => ?_, fun b e hf hg => ?_, fun b c hf hg => ?_⟩
  · simp [ChainBuilder.parallelSinks, ChainBuilder.promiseAll, hf]
  · simp [ChainBuilder.parallelSinks, ChainBuilder.promiseAll, hf, hg]
  · simp [ChainBuilder.parallelSinks, ChainBuilder.promiseAll, hf, hg]

/-- C6, amended, witness: the amended theorem applied to one rejecting and
one fulfilling sink over the integers. -/
theorem parallelSinks_first_rejection_witness :
    ChainBuilder.parallelSinks (42 : Int)
        [fun _ => (Except.error "boom" : Except String Int),
         fun _ => (Except.ok 0 : Except String Int)]
      = Except.error "boom" :=
  (parallelSinks_first_rejection_or_all_results Int String Int 42
      (fun _ => Except.error "boom") (fun _ => Except.ok 0)).1 "boom" rfl

/-! ## C7 — the sequential chain scenario -/

/-- C7.  Sequential chain composition: `simpleChain` passes the transformed
source to the sink — the sink's single invocation — and returns the sink's
result; instantiated at the concrete scenario, a source payload `ls` tagged
`HTTP_BODY` through the `concat` relay appending ` -la` reaches the sink as
`ls -la`, still tagged `HTTP_BODY`, and the run completes. -/
theorem simpleChain_concat_scenario :
    (∀ (α γ β : Type) (s : α) (t : α → γ) (k : γ → β),
      ChainBuilder.simpleChain s t k = k (t s)) ∧
    ChainBuilder.runSimpleChain
        (⟨"ls".toList, [httpBodyLabel], 0⟩ : TaintedValue (List Char))
        (applyPreserving (fun d => TaintTransform.concat [] d " -la".toList))
        (fun v => v)
      = ChainOutcome.completed ⟨"ls -la".toList, [httpBodyLabel], 1⟩ :=
  ⟨fun _ _ _ _ _ _ => rfl, by rfl⟩

/-! ## C9 — sanitizePath is not idempotent -/

/-- C9.  `sanitizePath` can reintroduce `../` in its own output: on the
input `....//etc` the single global replace returns `../etc`, which still
contains `../`, and applying `sanitizePath` a second time gives a different
result — so the function is not idempotent. -/
theorem sanitizePath_not_idempotent :
    WeakSanitizers.sanitizePath "....//etc".toList = "../etc".toList ∧
    ("../".toList <:+: WeakSanitizers.sanitizePath "....//etc".toList) ∧
    WeakSanitizers.sanitizePath (WeakSanitizers.sanitizePath "....//etc".toList) ≠
      WeakSanitizers.sanitizePath "....//etc".toList := by
  refine ⟨by decide, by decide, by decide⟩

/-! ## C8 — sanitizeCommand removes only first occurrences -/

/-- Removing the first occurrence of one character leaves the count of any
other character unchanged. -/
theorem count_replaceFirst_ne (p c : Char) (h : c ≠ p) (l : List Char) :
    (WeakSanitizers.replaceFirst p l).count c = l.count c := by
  induction l with
  | nil => rfl
  | cons x xs ih =>
    rw [WeakSanitizers.replaceFirst]
    by_cases hx : x = p
    · rw [if_pos hx, hx, List.count_cons_of_ne h]
    · rw [if_neg hx]
      by_cases hcx : c = x
      · subst hcx; rw [List.count_cons_self, List.count_cons_self, ih]
      · rw [List.count_cons_of_ne hcx, List.count_cons_of_ne hcx, ih]

/-- Removing the first occurrence of a character lowers its count by at most
one. -/
theorem count_replaceFirst_self (p : Char) (l : List Char) :
    l.count p ≤ (WeakSanitizers.replaceFirst p l).count p + 1 := by
  induction l with
  | nil => simp [WeakSanitizers.replaceFirst]
  | cons x xs ih =>
    rw [WeakSanitizers.replaceFirst]
    by_cases hx : x = p
    · rw [if_pos hx, hx, List.count_cons_self]
    · rw [if_neg hx]
      have hpx : p ≠ x := fun hh => hx hh.symm
      rw [List.count_cons_of_ne hpx, List.count_cons_of_ne hpx]
      exact ih

/-- Folding first-occurrence removals over a pattern list lowers any
character's count by at most the pattern list's count of it. -/
theorem count_foldl_replaceFirst (cs : List Char) :
    ∀ (l : List Char) (c : Char),
      l.count c ≤
        (cs.foldl (fun acc ch => WeakSanitizers.replaceFirst ch acc) l).count c
          + cs.count c := by
  induction cs with
  | nil => intro l c; simp
  | cons p cs ih =>
    intro l c
    rw [List.foldl_cons]
    by_cases hc : c = p
    · subst hc
      rw [List.count_cons_self]
      have h1 := count_replaceFirst_self c l
      have h2 := ih (WeakSanitizers.replaceFirst c l) c
      omega
    · rw [List.count_cons_of_ne hc]
      have h1 := count_replaceFirst_ne p c hc l
      have h2 := ih (WeakSanitizers.replaceFirst p l) c
      omega

/-- C8.  `sanitizeCommand` removes only the first occurrence of each
blacklisted character (string-pattern `replace`): any input containing a
blacklisted character at least twice still contains it after sanitization;
in particular `a;;b` sanitizes to `a;b`. -/
theorem sanitizeCommand_first_occurrence_only :
    (∀ (s : List Char) (c : Char), c ∈ WeakSanitizers.blacklist →
      2 ≤ s.count c → c ∈ WeakSanitizers.sanitizeCommand s) ∧
    WeakSanitizers.sanitizeCommand "a;;b".toList = "a;b".toList := by
  constructor
  · intro s c hc h2
    have hbl : WeakSanitizers.blacklist.count c = 1 := by
      fin_cases hc <;> decide
    have hfold := count_foldl_replaceFirst WeakSanitizers.blacklist s c
    rw [hbl] at hfold
    have hpos : 0 < (WeakSanitizers.sanitizeCommand s).count c := by
      rw [WeakSanitizers.sanitizeCommand]
      omega
    exact List.count_pos_iff.mp hpos
  · decide

/-- C8, witness: the theorem applied to the input `a;;b` and the blacklisted
semicolon, which occurs twice there. -/
theorem sanitizeCommand_first_occurrence_only_witness :
    ';' ∈ WeakSanitizers.sanitizeCommand "a;;b".toList :=
  sanitizeCommand_first_occurrence_only.1 "a;;b".toList ';' (by decide) (by decide)

/-! ## C10 — extractClaims is total and ignores the signature -/

/-- A dot-free string splits into itself alone. -/
theorem splitOnDot_no_dot (s : List Char) (h : '.' ∉ s) : splitOnDot s = [s] := by
  induction s with
  | nil => rfl
  | cons c rest ih =>
    have hc : c ≠ '.' := fun hh => h (hh ▸ List.mem_cons_self c rest)
    rw [splitOnDot, if_neg hc, ih (fun hm => h (List.mem_cons_of_mem c hm))]

/-- Splitting past a dot-free piece peels it off as the first group. -/
theorem splitOnDot_append (hd rest : List Char) (h : '.' ∉ hd) :
    splitOnDot (hd ++ '.' :: rest) = hd :: splitOnDot rest := by
  induction hd with
  | nil => rw [List.nil_append, splitOnDot, if_pos rfl]
  | cons c hd2 ih =>
    have hc : c ≠ '.' := fun hh => h (hh ▸ List.mem_cons_self c hd2)
    rw [List.cons_append, splitOnDot, if_neg hc,
      ih (fun hm => h (List.mem_cons_of_mem c hm))]

/-- C10.  `extractClaims` is total and never throws — for every platform
payload pipeline `decodePayload` (the composite base64 decode, UTF-8 read
and `JSON.parse`, total with the thrown parse error as `none` via the
catch): it returns `null` for a missing token, for the empty token, and for
any token that does not split on dots into exactly three parts; for a
well-shaped token `header.payload.sig` it returns exactly the pipeline's
result on the payload segment — `null` when parsing fails, the parsed
claims value otherwise — and the signature part is never examined, so any
two signatures give the same claims and no signature is ever verified. -/
theorem extractClaims_spec :
    ∀ decodePayload : List Char → Option Json,
      JwtSource.extractClaims decodePayload none = none ∧
      JwtSource.extractClaims decodePayload (some []) = none ∧
      (∀ t : List Char, (splitOnDot t).length ≠ 3 →
        JwtSource.extractClaims decodePayload (some t) = none) ∧
      (∀ hd pl sig : List Char, '.' ∉ hd → '.' ∉ pl → '.' ∉ sig →
        JwtSource.extractClaims decodePayload (some (hd ++ '.' :: (pl ++ '.' :: sig)))
          = decodePayload pl) ∧
      (∀ hd pl s1 s2 : List Char, '.' ∉ hd → '.' ∉ pl → '.' ∉ s1 → '.' ∉ s2 →
        JwtSource.extractClaims decodePayload (some (hd ++ '.' :: (pl ++ '.' :: s1)))
          = JwtSource.extractClaims decodePayload (some (hd ++ '.' :: (pl ++ '.' :: s2)))) := by
  intro decodePayload
  have hmain : ∀ hd pl sig : List Char, '.' ∉ hd → '.' ∉ pl → '.' ∉ sig →
      JwtSource.extractClaims decodePayload (some (hd ++ '.' :: (pl ++ '.' :: sig)))
        = decodePayload pl := by
    intro hd pl sig hh hp hs
    have hsplit : splitOnDot (hd ++ '.' :: (pl ++ '.' :: sig)) = [hd, pl, sig] := by
      rw [splitOnDot_append hd _ hh, splitOnDot_append pl _ hp, splitOnDot_no_dot sig hs]
    have hne : (hd ++ '.' :: (pl ++ '.' :: sig)).isEmpty = false := by
      cases hd <;> rfl
    rw [JwtSource.extractClaims, hne]
    simp only [Bool.false_eq_true, if_false]
    rw [dif_pos (by rw [hsplit]; rfl)]
    congr 1
    rw [List.get_of_eq hsplit]
    rfl
  refine ⟨rfl, rfl, ?_, hmain, ?_⟩
  · intro t hlen
    match t with
    | [] => rfl
    | c :: rest =>
      rw [JwtSource.extractClaims]
      simp only [List.isEmpty_cons, Bool.false_eq_true, if_false]
      rw [dif_neg hlen]
  · intro hd pl s1 s2 hh hp h1 h2
    rw [hmain hd pl s1 hh hp h1, hmain hd pl s2 hh hp h2]

/-- C10, witness: the theorem applied to a concrete pipeline (the parser of
this file on the raw segment characters): the length-mismatch conjunct at
the two-part token `a.b`, and the signature-independence conjunct at the
tokens `h.42.s1` and `h.42.s2`, whose dot-freedom is discharged by
evaluation. -/
theorem extractClaims_spec_witness :
    JwtSource.extractClaims jsonParse (some "a.b".toList) = none ∧
    JwtSource.extractClaims jsonParse (some "h.42.s1".toList)
      = JwtSource.extractClaims jsonParse (some "h.42.s2".toList) :=
  ⟨(extractClaims_spec jsonParse).2.2.1 "a.b".toList (by decide),
    (extractClaims_spec jsonParse).2.2.2.2 "h".toList "42".toList
      "s1".toList "s2".toList (by decide) (by decide) (by decide) (by decide)⟩

/-! ## Base64 round-trip lemmas (towards C3) -/

/-- Decoding a base64 alphabet character recovers its sextet. -/
theorem b64CharVal_b64Char : ∀ n, n < 64 → b64CharVal (b64Char n) = some n := by
  decide

/-- No base64 alphabet character is the padding character. -/
theorem b64Char_ne_pad : ∀ n, n < 64 → b64Char n ≠ '=' := by
  decide

/-- Base64 decoding inverts base64 encoding on byte lists. -/
theorem b64Decode_b64Encode :
    ∀ (bs : List Nat), (∀ b ∈ bs, b < 256) → b64Decode (b64Encode bs) = some bs
  | [], _ => rfl
  | [a], h => by
    have ha : a < 256 := h a (by simp)
    rw [b64Encode, b64Decode]
    rw [if_pos ⟨rfl, rfl, rfl⟩]
    rw [b64CharVal_b64Char (a / 4) (by omega),
      b64CharVal_b64Char (a % 4 * 16) (by omega)]
    simp only [Option.some.injEq, List.cons.injEq, and_true]
    omega
  | [a, b], h => by
    have ha : a < 256 := h a (by simp)
    have hb : b < 256 := h b (by simp)
    rw [b64Encode, b64Decode]
    rw [if_neg (fun hpad => b64Char_ne_pad (b % 16 * 4) (by omega) hpad.1)]
    rw [if_pos ⟨rfl, rfl⟩]
    rw [b64CharVal_b64Char (a / 4) (by omega),
      b64CharVal_b64Char (a % 4 * 16 + b / 16) (by omega),
      b64CharVal_b64Char (b % 16 * 4) (by omega)]
    simp only [Option.some.injEq, List.cons.injEq, and_true]
    exact ⟨by omega, by omega⟩
  | a :: b :: c :: rest, h => by
    have ha : a < 256 := h a (by simp)
    have hb : b < 256 := h b (by simp)
    have hc : c < 256 := h c (by simp)
    have ih := b64Decode_b64Encode rest
      (fun x hx => h x (by simp [hx]))
    rw [b64Encode, b64Decode]
    rw [if_neg (fun hpad => b64Char_ne_pad (b % 16 * 4 + c / 64) (by omega) hpad.1)]
    rw [if_neg (fun hpad => b64Char_ne_pad (c % 64) (by omega) hpad.1)]
    rw [b64CharVal_b64Char (a / 4) (by omega),
      b64CharVal_b64Char (a % 4 * 16 + b / 16) (by omega),
      b64CharVal_b64Char (b % 16 * 4 + c / 64) (by omega),
      b64CharVal_b64Char (c % 64) (by omega)]
    rw [ih]
    simp only [Option.some.injEq, List.cons.injEq, and_true]
    exact ⟨by omega, by omega, by omega⟩

/-! ## Decimal digit lemmas (towards C3) -/

/-- The code of a digit character. -/
theorem digitChar_toNat (d : Nat) (h : d < 10) : (digitChar d).toNat = 48 + d := by
  interval_cases d <;> decide

/-- Digit characters are digits. -/
theorem isDigit_digitChar (d : Nat) (h : d < 10) : isDigit (digitChar d) = true := by
  interval_cases d <;> decide

/-- A digit run is never empty. -/
theorem natChars_ne_nil (n : Nat) : natChars n ≠ [] := by
  rw [natChars.eq_def]
  split
  · simp
  · simp

/-- Every character of a rendered natural number is a digit. -/
theorem natChars_digits (n : Nat) : ∀ c ∈ natChars n, isDigit c = true := by
  induction n using Nat.strong_induction_on with
  | _ n ih =>
    rw [natChars.eq_def]
    split
    · next h =>
      intro c hc
      rw [List.mem_singleton] at hc
      subst hc
      exact isDigit_digitChar n h
    · next h =>
      intro c hc
      rw [List.mem_append] at hc
      cases hc with
      | inl hm => exact ih (n / 10) (Nat.div_lt_self (by omega) (by omega)) c hm
      | inr hm =>
        rw [List.mem_singleton] at hm
        subst hm
        exact isDigit_digitChar (n % 10) (by omega)

/-- A rendered natural number starts with a digit character. -/
theorem natChars_head (n : Nat) :
    ∃ d t, natChars n = digitChar d :: t ∧ d < 10 := by
  induction n using Nat.strong_induction_on with
  | _ n ih =>
    rw [natChars.eq_def]
    split
    · next h => exact ⟨n, [], rfl, h⟩
    · next h =>
      obtain ⟨d, t, heq, hd⟩ := ih (n / 10) (Nat.div_lt_self (by omega) (by omega))
      exact ⟨d, t ++ [digitChar (n % 10)], by rw [heq, List.cons_append], hd⟩

/-- Appending one digit multiplies the denoted value by ten and adds it. -/
theorem digitsVal_append (ds : List Char) (c : Char) :
    digitsVal (ds ++ [c]) = digitsVal ds * 10 + (c.toNat - 48) := by
  simp [digitsVal, List.foldl_append]

/-- The digit run of a natural number denotes it. -/
theorem digitsVal_natChars (n : Nat) : digitsVal (natChars n) = n := by
  induction n using Nat.strong_induction_on with
  | _ n ih =>
    rw [natChars.eq_def]
    split
    · next h =>
      show digitsVal [digitChar n] = n
      rw [show digitsVal [digitChar n] = 0 * 10 + ((digitChar n).toNat - 48) from rfl]
      rw [digitChar_toNat n h]
      omega
    · next h =>
      rw [digitsVal_append, ih (n / 10) (Nat.div_lt_self (by omega) (by omega)),
        digitChar_toNat (n % 10) (by omega)]
      omega

/-- The digit scanner takes nothing from input that cannot extend a number. -/
theorem digitRun_stop (cs : List Char) (h : stopsNum cs = true) :
    digitRun cs = ([], cs) := by
  match cs with
  | [] => rfl
  | c :: rest =>
    rw [stopsNum] at h
    rw [digitRun, if_neg (by simp only [Bool.not_eq_true'] at h; simp [h])]

/-- The digit scanner consumes exactly a leading digit run. -/
theorem digitRun_append (ds : List Char) (hds : ∀ c ∈ ds, isDigit c = true)
    (rest : List Char) (hrest : stopsNum rest = true) :
    digitRun (ds ++ rest) = (ds, rest) := by
  induction ds with
  | nil => exact digitRun_stop rest hrest
  | cons c t ih =>
    rw [List.cons_append, digitRun, if_pos (hds c (List.mem_cons_self c t))]
    rw [ih (fun x hx => hds x (List.mem_cons_of_mem c hx))]

/-! ## String escape lemmas (towards C3) -/

/-- Reading back a rendered hexadecimal digit. -/
theorem hexCharVal_hexDigitChar : ∀ d, d < 16 → hexCharVal (hexDigitChar d) = some d := by
  decide

/-- Parsing one escaped character undoes its escape and continues. -/
theorem parseStrBody_escapeChar (c : Char) (tail : List Char) :
    parseStrBody (escapeChar c ++ tail) =
      match parseStrBody tail with
      | some (s, r) => some (c :: s, r)
      | none => none := by
  rw [escapeChar]
  by_cases h1 : c = '"'
  · rw [if_pos h1]; subst h1; rfl
  rw [if_neg h1]
  by_cases h2 : c = '\\'
  · rw [if_pos h2]; subst h2; rfl
  rw [if_neg h2]
  by_cases h3 : c = Char.ofNat 8
  · rw [if_pos h3]; subst h3; rfl
  rw [if_neg h3]
  by_cases h4 : c = Char.ofNat 9
  · rw [if_pos h4]; subst h4; rfl
  rw [if_neg h4]
  by_cases h5 : c = Char.ofNat 10
  · rw [if_pos h5]; subst h5; rfl
  rw [if_neg h5]
  by_cases h6 : c = Char.ofNat 12
  · rw [if_pos h6]; subst h6; rfl
  rw [if_neg h6]
  by_cases h7 : c = Char.ofNat 13
  · rw [if_pos h7]; subst h7; rfl
  rw [if_neg h7]
  by_cases h8 : c.toNat < 32
  · rw [if_pos h8]
    show parseStrBody ('\\' :: 'u' :: '0' :: '0' :: hexDigitChar (c.toNat / 16)
        :: hexDigitChar (c.toNat % 16) :: tail) = _
    rw [parseStrBody]
    rw [show hexCharVal '0' = some 0 from rfl,
      hexCharVal_hexDigitChar (c.toNat / 16) (by omega),
      hexCharVal_hexDigitChar (c.toNat % 16) (by omega)]
    have harith : ((0 * 16 + 0) * 16 + c.toNat / 16) * 16 + c.toNat % 16 = c.toNat := by
      omega
    simp only [harith, Char.ofNat_toNat]
  · rw [if_neg h8]
    show parseStrBody (c :: tail) = _
    rw [parseStrBody.eq_def]
    split
    · rename_i heq
      exact absurd heq (by simp)
    · rename_i heq
      rw [List.cons.injEq] at heq
      exact absurd heq.1 h1
    · rename_i a b d e rest heq
      rw [List.cons.injEq] at heq
      exact absurd heq.1 h2
    · rename_i e rest heq
      rw [List.cons.injEq] at heq
      exact absurd heq.1 h2
    · rename_i heq2
      injection heq2 with hhd htl
      subst hhd
      subst htl
      rfl

/-- Parsing a rendered string body recovers the string and stops at the
closing quote. -/
theorem parseStrBody_escapeStr (s : List Char) : ∀ tail : List Char,
    parseStrBody (escapeStr s ++ '"' :: tail) = some (s, tail) := by
  induction s with
  | nil => intro tail; rfl
  | cons c t ih =>
    intro tail
    rw [escapeStr, List.flatMap_cons, List.append_assoc, ← escapeStr,
      parseStrBody_escapeChar, ih tail]

/-- Every JSON value needs at least one unit of parser fuel. -/
theorem jsize_pos (v : Json) : 1 ≤ jsize v := by
  cases v <;> simp [jsize]

/-- A rendered value starts with a character other than a closing bracket
(needed to tell a one-element array from an empty one). -/
theorem stringify_head (v : Json) :
    ∃ c t, stringify v = c :: t ∧ c ≠ ']' := by
  cases v with
  | null => exact ⟨'n', _, rfl, by decide⟩
  | bool b =>
    cases b with
    | true => exact ⟨'t', _, rfl, by decide⟩
    | false => exact ⟨'f', _, rfl, by decide⟩
  | num i =>
    show ∃ c t, intChars i = c :: t ∧ c ≠ ']'
    rw [intChars]
    by_cases hneg : i < 0
    · rw [if_pos hneg]
      exact ⟨'-', _, rfl, by decide⟩
    · rw [if_neg hneg]
      obtain ⟨d, t, heq, hd⟩ := natChars_head i.natAbs
      refine ⟨digitChar d, t, heq, ?_⟩
      intro hc
      have h93 := digitChar_toNat d hd
      rw [hc] at h93
      have h93n : (93 : Nat) = 48 + d := h93
      omega
  | str s => exact ⟨'"', _, rfl, by decide⟩
  | arr xs => exact ⟨'[', _, rfl, by decide⟩
  | obj fs => exact ⟨'{', _, rfl, by decide⟩

set_option maxHeartbeats 2000000 in
/-- On input headed by a digit, the parser takes its number arm. -/
theorem parseVal_digit_arm (f : Nat) (c : Char) (cs : List Char)
    (hdig : isDigit c = true) :
    parseVal (f + 1) (c :: cs) =
      if (digitRun (c :: cs)).1 = [] then none
      else some (Json.num (digitsVal (digitRun (c :: cs)).1 : Int),
        (digitRun (c :: cs)).2) := by
  have hn : c ≠ 'n' := fun h => by subst h; exact absurd hdig (by decide)
  have ht : c ≠ 't' := fun h => by subst h; exact absurd hdig (by decide)
  have hf2 : c ≠ 'f' := fun h => by subst h; exact absurd hdig (by decide)
  have hq : c ≠ '"' := fun h => by subst h; exact absurd hdig (by decide)
  have hlb : c ≠ '[' := fun h => by subst h; exact absurd hdig (by decide)
  have hcb : c ≠ '{' := fun h => by subst h; exact absurd hdig (by decide)
  have hm : c ≠ '-' := fun h => by subst h; exact absurd hdig (by decide)
  rw [parseVal.eq_def]
  split
  · rename_i heq
    simp at heq
  · rename_i heq
    rw [List.cons.injEq] at heq
    exact absurd heq.1 hn
  · rename_i heq
    rw [List.cons.injEq] at heq
    exact absurd heq.1 ht
  · rename_i heq
    rw [List.cons.injEq] at heq
    exact absurd heq.1 hf2
  · rename_i heq
    rw [List.cons.injEq] at heq
    exact absurd heq.1 hq
  · rename_i heq
    rw [List.cons.injEq] at heq
    exact absurd heq.1 hlb
  · rename_i heq
    rw [List.cons.injEq] at heq
    exact absurd heq.1 hcb
  · rename_i heq
    rw [List.cons.injEq] at heq
    exact absurd heq.1 hm
  · rename_i heq2 heq
    injection heq with hhd htl
    subst hhd
    subst htl
    rw [if_pos hdig]
  · rename_i heq
    exact absurd heq (by simp)

/-- One-step unfolding of the parser at an opening quote (definitional). -/
theorem parseVal_quote_arm (fuel : Nat) (X : List Char) :
    parseVal (fuel + 1) ('"' :: X) =
      match parseStrBody X with
      | some (s, r) => some (Json.str s, r)
      | none => none := rfl

/-- One-step unfolding of the parser at a minus sign (definitional). -/
theorem parseVal_minus_arm (fuel : Nat) (X : List Char) :
    parseVal (fuel + 1) ('-' :: X) =
      if (digitRun X).1 = [] then none
      else some (Json.num (-(digitsVal (digitRun X).1 : Int)), (digitRun X).2) := rfl

/-- One-step unfolding of the parser at an opening bracket (definitional). -/
theorem parseVal_lbracket_arm (fuel : Nat) (X : List Char) :
    parseVal (fuel + 1) ('[' :: X) =
      (match X with
      | ']' :: r => some (Json.arr JsonList.nil, r)
      | _ =>
        match parseItems fuel X with
        | some (xs, r) => some (Json.arr xs, r)
        | none => none) := rfl

/-- One-step unfolding of the parser at an opening brace (definitional). -/
theorem parseVal_lbrace_arm (fuel : Nat) (X : List Char) :
    parseVal (fuel + 1) ('{' :: X) =
      (match X with
      | '}' :: r => some (Json.obj JsonFields.nil, r)
      | _ =>
        match parseProps fuel X with
        | some (fs, r) => some (Json.obj fs, r)
        | none => none) := rfl

/-- One-step unfolding of the element parser (definitional). -/
theorem parseItems_step (fuel : Nat) (cs : List Char) :
    parseItems (fuel + 1) cs =
      (match parseVal fuel cs with
      | none => none
      | some (v, r) =>
        match r with
        | ',' :: r2 =>
          match parseItems fuel r2 with
          | some (xs, r3) => some (JsonList.cons v xs, r3)
          | none => none
        | ']' :: r2 => some (JsonList.cons v JsonList.nil, r2)
        | _ => none) := rfl

/-- One-step unfolding of the property parser at a key's opening quote
(definitional). -/
theorem parseProps_quote_arm (fuel : Nat) (X : List Char) :
    parseProps (fuel + 1) ('"' :: X) =
      (match parseStrBody X with
      | none => none
      | some (k, r1) =>
        match r1 with
        | ':' :: r2 =>
          match parseVal fuel r2 with
          | none => none
          | some (v, r3) =>
            match r3 with
            | ',' :: r4 =>
              match parseProps fuel r4 with
              | some (fs, r5) => some (JsonFields.cons k v fs, r5)
              | none => none
            | '}' :: r4 => some (JsonFields.cons k v JsonFields.nil, r4)
            | _ => none
        | _ => none) := rfl

mutual

/-- Parsing a rendered value consumes exactly its rendering and recovers the
value, with any remainder that cannot extend a number left untouched. -/
theorem parseVal_stringify : ∀ (fuel : Nat) (v : Json) (rest : List Char),
    jsize v ≤ fuel → stopsNum rest = true →
    parseVal fuel (stringify v ++ rest) = some (v, rest)
  | 0, v, _, hf, _ => absurd hf (by have := jsize_pos v; omega)
  | fuel + 1, Json.null, rest, _, _ => rfl
  | fuel + 1, Json.bool true, rest, _, _ => rfl
  | fuel + 1, Json.bool false, rest, _, _ => rfl
  | fuel + 1, Json.num i, rest, _, hr => by
    show parseVal (fuel + 1) (intChars i ++ rest) = some (Json.num i, rest)
    rw [intChars]
    by_cases hneg : i < 0
    · rw [if_pos hneg, List.cons_append, parseVal_minus_arm,
        digitRun_append _ (natChars_digits _) rest hr]
      dsimp only
      rw [if_neg (natChars_ne_nil _), digitsVal_natChars]
      have hi : -(i.natAbs : Int) = i := by omega
      rw [hi]
    · rw [if_neg hneg]
      obtain ⟨d, t, heq, hd⟩ := natChars_head i.natAbs
      rw [heq, List.cons_append,
        parseVal_digit_arm fuel _ _ (isDigit_digitChar d hd),
        ← List.cons_append, ← heq,
        digitRun_append _ (natChars_digits _) rest hr]
      dsimp only
      rw [if_neg (natChars_ne_nil _), digitsVal_natChars]
      have hi : (i.natAbs : Int) = i := by omega
      rw [hi]
  | fuel + 1, Json.str s, rest, _, _ => by
    show parseVal (fuel + 1) (quoteStr s ++ rest) = some (Json.str s, rest)
    rw [quoteStr, List.cons_append, List.append_assoc, List.singleton_append,
      parseVal_quote_arm, parseStrBody_escapeStr]
  | fuel + 1, Json.arr JsonList.nil, rest, _, _ => rfl
  | fuel + 1, Json.arr (JsonList.cons v tl), rest, hf, _ => by
    show parseVal (fuel + 1)
        (('[' :: (stringifyItems (JsonList.cons v tl) ++ [']'])) ++ rest)
      = some (Json.arr (JsonList.cons v tl), rest)
    rw [List.cons_append, List.append_assoc, List.singleton_append,
      parseVal_lbracket_arm]
    obtain ⟨c0, t0, hhd, hne⟩ := stringify_head v
    have hshape : stringifyItems (JsonList.cons v tl) ++ ']' :: rest
        = c0 :: (t0 ++ (moreItems tl ++ ']' :: rest)) := by
      rw [stringifyItems, hhd]
      simp [List.append_assoc]
    rw [hshape]
    split
    · rename_i heq
      rw [List.cons.injEq] at heq
      exact absurd heq.1 hne
    · rw [← hshape,
        parseItems_stringify fuel v tl rest (by simp [jsize, lsize] at hf; omega)]
  | fuel + 1, Json.obj JsonFields.nil, rest, _, _ => rfl
  | fuel + 1, Json.obj (JsonFields.cons k v tl), rest, hf, _ => by
    show parseVal (fuel + 1)
        (('{' :: (stringifyProps (JsonFields.cons k v tl) ++ ['}'])) ++ rest)
      = some (Json.obj (JsonFields.cons k v tl), rest)
    rw [List.cons_append, List.append_assoc, List.singleton_append,
      parseVal_lbrace_arm]
    have hshape : stringifyProps (JsonFields.cons k v tl) ++ '}' :: rest
        = '"' :: (escapeStr k ++ '"' ::
            (':' :: (stringify v ++ (moreProps tl ++ '}' :: rest)))) := by
      rw [stringifyProps, quoteStr]
      simp [List.append_assoc]
    rw [hshape]
    split
    · rename_i heq
      rw [List.cons.injEq] at heq
      exact absurd heq.1 (by decide)
    · rw [← hshape,
        parseProps_stringify fuel k v tl rest (by simp [jsize, psize] at hf; omega)]

/-- Parsing rendered elements past the closing bracket recovers them. -/
theorem parseItems_stringify : ∀ (fuel : Nat) (v : Json) (xs : JsonList)
    (rest : List Char), 1 + jsize v + lsize xs ≤ fuel →
    parseItems fuel (stringifyItems (JsonList.cons v xs) ++ ']' :: rest)
      = some (JsonList.cons v xs, rest)
  | 0, v, xs, rest, hf => absurd hf (by omega)
  | fuel + 1, v, JsonList.nil, rest, hf => by
    rw [parseItems_step]
    have harr : stringifyItems (JsonList.cons v JsonList.nil) ++ ']' :: rest
        = stringify v ++ ']' :: rest := by
      rw [stringifyItems, moreItems, List.append_nil]
    rw [harr,
      parseVal_stringify fuel v (']' :: rest) (by simp [lsize] at hf; omega) (by rfl)]
    rfl
  | fuel + 1, v, JsonList.cons v2 xs2, rest, hf => by
    rw [parseItems_step]
    have harr : stringifyItems (JsonList.cons v (JsonList.cons v2 xs2)) ++ ']' :: rest
        = stringify v
            ++ ',' :: (stringifyItems (JsonList.cons v2 xs2) ++ ']' :: rest) := by
      rw [stringifyItems, moreItems, stringifyItems]
      simp [List.append_assoc]
    rw [harr, parseVal_stringify fuel v _ (by simp [lsize] at hf; omega) (by rfl)]
    show (match parseItems fuel (stringifyItems (JsonList.cons v2 xs2) ++ ']' :: rest) with
      | some (xs, r3) => some (JsonList.cons v xs, r3)
      | none => none) = some (JsonList.cons v (JsonList.cons v2 xs2), rest)
    rw [parseItems_stringify fuel v2 xs2 rest (by simp [lsize] at hf; omega)]

/-- Parsing rendered properties past the closing brace recovers them. -/
theorem parseProps_stringify : ∀ (fuel : Nat) (k : List Char) (v : Json)
    (fs : JsonFields) (rest : List Char), 1 + jsize v + psize fs ≤ fuel →
    parseProps fuel (stringifyProps (JsonFields.cons k v fs) ++ '}' :: rest)
      = some (JsonFields.cons k v fs, rest)
  | 0, k, v, fs, rest, hf => absurd hf (by omega)
  | fuel + 1, k, v, JsonFields.nil, rest, hf => by
    have hshape : stringifyProps (JsonFields.cons k v JsonFields.nil) ++ '}' :: rest
        = '"' :: (escapeStr k ++ '"' :: (':' :: (stringify v ++ '}' :: rest))) := by
      rw [stringifyProps, quoteStr, moreProps]
      simp [List.append_assoc]
    rw [hshape, parseProps_quote_arm, parseStrBody_escapeStr]
    show (match parseVal fuel (stringify v ++ '}' :: rest) with
      | none => none
      | some (w, r3) =>
        match r3 with
        | ',' :: r4 =>
          match parseProps fuel r4 with
          | some (fs, r5) => some (JsonFields.cons k w fs, r5)
          | none => none
        | '}' :: r4 => some (JsonFields.cons k w JsonFields.nil, r4)
        | _ => none) = some (JsonFields.cons k v JsonFields.nil, rest)
    rw [parseVal_stringify fuel v ('}' :: rest) (by simp [psize] at hf; omega) (by rfl)]
    rfl
  | fuel + 1, k, v, JsonFields.cons k2 v2 fs2, rest, hf => by
    have hshape : stringifyProps (JsonFields.cons k v (JsonFields.cons k2 v2 fs2))
          ++ '}' :: rest
        = '"' :: (escapeStr k ++ '"' :: (':' :: (stringify v
            ++ ',' :: (stringifyProps (JsonFields.cons k2 v2 fs2) ++ '}' :: rest)))) := by
      rw [stringifyProps, quoteStr, moreProps, stringifyProps]
      simp [List.append_assoc]
    rw [hshape, parseProps_quote_arm, parseStrBody_escapeStr]
    show (match parseVal fuel (stringify v
        ++ ',' :: (stringifyProps (JsonFields.cons k2 v2 fs2) ++ '}' :: rest)) with
      | none => none
      | some (w, r3) =>
        match r3 with
        | ',' :: r4 =>
          match parseProps fuel r4 with
          | some (fs, r5) => some (JsonFields.cons k w fs, r5)
          | none => none
        | '}' :: r4 => some (JsonFields.cons k w JsonFields.nil, r4)
        | _ => none)
      = some (JsonFields.cons k v (JsonFields.cons k2 v2 fs2), rest)
    rw [parseVal_stringify fuel v _ (by simp [psize] at hf; omega) (by rfl)]
    show (match parseProps fuel (stringifyProps (JsonFields.cons k2 v2 fs2)
        ++ '}' :: rest) with
      | some (fs, r5) => some (JsonFields.cons k v fs, r5)
      | none => none)
      = some (JsonFields.cons k v (JsonFields.cons k2 v2 fs2), rest)
    rw [parseProps_stringify fuel k2 v2 fs2 rest (by simp [psize] at hf; omega)]

end

mutual

/-- A value's fuel requirement is bounded by its rendering's length. -/
theorem jsize_le_length : ∀ v : Json, jsize v ≤ (stringify v).length
  | Json.null => by simp [jsize, stringify]
  | Json.bool true => by simp [jsize, stringify]
  | Json.bool false => by simp [jsize, stringify]
  | Json.num i => by
    have h := List.length_pos.mpr (natChars_ne_nil i.natAbs)
    show jsize (Json.num i) ≤ (intChars i).length
    rw [intChars]
    by_cases hneg : i < 0
    · rw [if_pos hneg]
      simp only [jsize, List.length_cons]
      omega
    · rw [if_neg hneg]
      simp only [jsize]
      omega
  | Json.str s => by
    simp only [jsize, stringify, quoteStr, List.length_cons, List.length_append]
    omega
  | Json.arr JsonList.nil => by
    simp [jsize, lsize, stringify, stringifyItems]
  | Json.arr (JsonList.cons v t) => by
    have h1 := jsize_le_length v
    have h2 := lsize_le_length t
    simp only [jsize, lsize, stringify, stringifyItems, List.length_cons,
      List.length_append, List.length_singleton]
    omega
  | Json.obj JsonFields.nil => by
    simp [jsize, psize, stringify, stringifyProps]
  | Json.obj (JsonFields.cons k v t) => by
    have h1 := jsize_le_length v
    have h2 := psize_le_length t
    simp only [jsize, psize, stringify, stringifyProps, quoteStr,
      List.length_cons, List.length_append, List.length_singleton]
    omega

/-- An element list's fuel requirement is bounded by its comma-prefixed
rendering's length. -/
theorem lsize_le_length : ∀ xs : JsonList, lsize xs ≤ (moreItems xs).length
  | JsonList.nil => by simp [lsize, moreItems]
  | JsonList.cons v t => by
    have h1 := jsize_le_length v
    have h2 := lsize_le_length t
    simp only [lsize, moreItems, List.length_cons, List.length_append]
    omega

/-- A property list's fuel requirement is bounded by its comma-prefixed
rendering's length. -/
theorem psize_le_length : ∀ fs : JsonFields, psize fs ≤ (moreProps fs).length
  | JsonFields.nil => by simp [psize, moreProps]
  | JsonFields.cons k v t => by
    have h1 := jsize_le_length v
    have h2 := psize_le_length t
    simp only [psize, moreProps, quoteStr, List.length_cons, List.length_append]
    omega

end

/-! ## C3 — round-trip identity -/

/-- C3.  Round-trip identity: `jsonRoundTrip` deep-equals its input on every
JSON value, `base64RoundTrip` returns every byte string unchanged, and the
harness's label-carrying application of the JSON round trip preserves the
payload and the full label set (provenance survives the round trip). -/
theorem roundtrip_identity :
    (∀ v : Json, TaintTransform.jsonRoundTrip v = some v) ∧
    (∀ data : List Nat, (∀ b ∈ data, b < 256) →
      TaintTransform.base64RoundTrip data = some data) ∧
    (∀ v : TaintedValue Json,
      applyPreserving TaintTransform.jsonRoundTrip v
        = ⟨some v.payload, v.labels, v.hopCount + 1⟩) := by
  have hjson : ∀ v : Json, TaintTransform.jsonRoundTrip v = some v := by
    intro v
    rw [TaintTransform.jsonRoundTrip, jsonParse]
    have hle : jsize v ≤ (stringify v).length + 1 := by
      have := jsize_le_length v
      omega
    have hrun := parseVal_stringify ((stringify v).length + 1) v [] hle rfl
    rw [List.append_nil] at hrun
    rw [hrun]
  refine ⟨hjson, fun data h => b64Decode_b64Encode data h, fun v => ?_⟩
  rw [applyPreserving, hjson v.payload]

/-- C3, witness: the theorem applied to the concrete scenario payload (the
object with fields `field` and `value`) and to a concrete two-byte string,
whose byte bound is discharged by evaluation. -/
theorem roundtrip_identity_witness :
    TaintTransform.jsonRoundTrip (Json.obj (JsonFields.cons "field".toList
        (Json.str "id".toList) (JsonFields.cons "value".toList
        (Json.str "1 OR 1=1".toList) JsonFields.nil)))
      = some (Json.obj (JsonFields.cons "field".toList (Json.str "id".toList)
        (JsonFields.cons "value".toList (Json.str "1 OR 1=1".toList)
        JsonFields.nil))) ∧
    TaintTransform.base64RoundTrip [104, 105] = some [104, 105] :=
  ⟨roundtrip_identity.1 _, roundtrip_identity.2.1 [104, 105] (by decide)⟩

end JsVuln
